import Mathlib

/-!
Verification development for the multiprecision context module `ctx_mp.py`
(mpf/mpc/mpi number tower, precision context, precision scopes, and the
adaptive hypergeometric summation driver `hypsum`).

The Python source is shallowly embedded below.  Machine integers of the
source are `Int`/`Nat`; exact kernel real values are modelled by `KReal`
(a rational together with the special forms `nan`, `inf`, `ninf`); fallible
operations return `Except`.  Components of the repository that live outside
the embedded file (the `libmp` NumericKernel, `ctx_base`, `rational.mpq`
internals) are modelled from the specification; each such definition carries
a doc comment starting with "Modelled from the spec:".
-/

namespace CtxMP

/-- Decidable equality of fallible results. -/
instance instDecEqExcept {ε α : Type} [DecidableEq ε] [DecidableEq α] :
    DecidableEq (Except ε α) := fun a b =>
  match a, b with
  | .ok x, .ok y => decidable_of_iff (x = y) (by simp)
  | .error x, .error y => decidable_of_iff (x = y) (by simp)
  | .ok _, .error _ => isFalse (fun h => Except.noConfusion h)
  | .error _, .ok _ => isFalse (fun h => Except.noConfusion h)

/-! ## Kernel real values

`libmp` real values are `(sign, man, exp, bc)` tuples plus the special
forms `fzero, finf, fninf, fnan`.  We model a kernel real abstractly by its
exact value: a rational for the finite forms, plus the three special forms.
-/

/-- A kernel real value: a finite exact value or one of the special forms. -/
inductive KReal where
  | nan
  | inf
  | ninf
  | fin (q : ℚ)
deriving DecidableEq

/-- `ctx.isnan` on a kernel real. -/
def isnanK : KReal → Bool
  | .nan => true
  | _ => false

/-- Kernel comparison `mpf_le` (used by the `assert a <= b` in `_mpi.__new__`):
comparisons involving `nan` are false, `-inf` is below and `+inf` above
every non-`nan` value, finite values compare by their rationals. -/
def kleB : KReal → KReal → Bool
  | .nan, _ => false
  | _, .nan => false
  | .ninf, _ => true
  | _, .inf => true
  | _, .ninf => false
  | .inf, _ => false
  | .fin a, .fin b => decide (a ≤ b)

/-- Modelled from the spec: the NumericKernel's directed-rounding
renormalization of a real value at precision `prec` in `floor` mode
(`ctx.mpf(a, rounding=round_floor)` in `_mpi.__new__`).  Modelled as
fixed-point rounding toward minus infinity with `prec` fractional bits;
special forms are preserved. -/
def kfloor (prec : ℕ) : KReal → KReal
  | .fin q => .fin ((⌊q * 2 ^ prec⌋ : ℚ) / 2 ^ prec)
  | x => x

/-- Modelled from the spec: directed-rounding renormalization at precision
`prec` in `ceiling` mode (`ctx.mpf(b, rounding=round_ceiling)`). -/
def kceil (prec : ℕ) : KReal → KReal
  | .fin q => .fin ((⌈q * 2 ^ prec⌉ : ℚ) / 2 ^ prec)
  | x => x

/-! ## Ordering comparisons on `_mpc` and `_mpi` (claim C4)

`_mpc._compare` and `_mpi._compare` raise
`TypeError("no ordering relation is defined ...")`.  The source installs
them on the rich-comparison slots with the assignment sequence

    __gt__ = _compare
    __le__ = _compare
    __gt__ = _compare
    __ge__ = _compare

(lines 436-439 for `_mpc`, 595-598 for `_mpi`): `__gt__` is written twice
and `__lt__` is never assigned.  We model the class dictionary that these
assignments build and Python's rich-comparison dispatch over it for an
ordering operator between two instances of the same class: the left
operand's slot is tried first; if that slot is unassigned, the right
operand's *reflected* slot (`lt`/`gt` and `le`/`ge` are each other's
reflection) is tried; only if both are unassigned does Python 2 fall back
to its default comparison of objects, which returns a boolean.  A slot
bound to `_compare` raises as soon as it is invoked.
-/

/-- The four rich-comparison slots. -/
inductive CmpSlot where
  | lt
  | le
  | gt
  | ge
deriving DecidableEq

/-- The sequence of slots assigned to `_mpc._compare` in the source,
in source order (lines 436-439). -/
def mpcCompareAssignments : List CmpSlot := [.gt, .le, .gt, .ge]

/-- The sequence of slots assigned to `_mpi._compare` in the source,
in source order (lines 595-598). -/
def mpiCompareAssignments : List CmpSlot := [.gt, .le, .gt, .ge]

/-- Whether a slot ends up bound to `_compare` after the assignments. -/
def slotAssigned (assigns : List CmpSlot) (s : CmpSlot) : Bool :=
  assigns.contains s

/-- The reflected slot of each ordering operator: for `a < b` with no
`__lt__` on `a`'s class, Python invokes `b.__gt__(a)`, and so on. -/
def reflSlot : CmpSlot → CmpSlot
  | .lt => .gt
  | .gt => .lt
  | .le => .ge
  | .ge => .le

/-- Outcome of evaluating an ordering operator on two values of the class. -/
inductive CmpOutcome where
  /-- a slot bound to `_compare` was invoked, which raises `TypeError`. -/
  | raisesTypeError
  /-- neither the operator's slot nor its reflection is assigned: Python 2
  falls back to its default comparison of objects, which returns a
  boolean. -/
  | returnsBool
deriving DecidableEq

/-- Python's rich-comparison dispatch for an ordering operator `s` between
two instances of one class with assignment list `assigns`: the operator's
own slot first, then the right operand's reflected slot, then the default
boolean comparison. -/
def richCompareOutcome (assigns : List CmpSlot) (s : CmpSlot) : CmpOutcome :=
  if slotAssigned assigns s then .raisesTypeError
  else if slotAssigned assigns (reflSlot s) then .raisesTypeError
  else .returnsBool

/-! ## `isnpint` on exact rationals (claim C10)

Source (`MPContext.isnpint`, mpq branch, lines 1007-1022):

    if not x:
        return True
    ...
    if isinstance(x, ctx.mpq):
        # XXX: WRONG
        p, q = x
        if not p:
            return True
        return (not (q % p)) and p <= 0

Python's `%` is floor-modulo, i.e. `Int.fmod`.  Modelled from the spec:
an `mpq` is falsy exactly when its numerator is zero (the truthiness test
`if not x` at the top of `isnpint`), so both zero tests collapse to
`p = 0`. -/
def isnpint_mpq (p q : Int) : Bool :=
  if p = 0 then true
  else decide (Int.fmod q p = 0) && decide (p ≤ 0)

/-- The claim's own characterization (second definition, following the
claim's words, for comparison with the source function): `mpq(p, q)` with
`q > 0` is a non-positive integer iff `q` divides `p` and `p ≤ 0`. -/
def IsNPIntRatClaim (p q : Int) : Prop := q ∣ p ∧ p ≤ 0

instance (p q : Int) : Decidable (IsNPIntRatClaim p q) := by
  unfold IsNPIntRatClaim
  infer_instance

/-! ## Precision/digit bookkeeping of the context (claims C5, C6) -/

/-- Modelled from the spec: the fixed conversion from binary precision to
decimal digits, `digits = ceil((precision - 1) * log10 2)` clamped to at
least 1, with `log10 2` taken as the fixed constant `30103 / 100000`
(`libmp.prec_to_dps` is not under `src/`).  `(x + 99999) / 100000` in
euclidean integer division is `ceil (x / 100000)`. -/
def prec_to_dps (n : Int) : Int :=
  max 1 (((n - 1) * 30103 + 99999) / 100000)

/-- Modelled from the spec: the fixed conversion from decimal digits to
binary precision, `precision = ceil(digits * log2 10)` clamped to at least
1, with `log2 10 = 100000 / 30103` (`libmp.dps_to_prec` is not under
`src/`). -/
def dps_to_prec (n : Int) : Int :=
  max 1 ((n * 100000 + 30102) / 30103)

/-- The precision-related mutable state of `MPContext`: `_prec` (also the
`_prec_rounding[0]` cell), its decimal mirror `_dps`, and the
`trap_complex` flag. -/
structure MCtx where
  _prec : Int
  _dps : Int
  trap_complex : Bool
deriving DecidableEq

/-- `MPContext.set_prec`:
`ctx._prec = ctx._prec_rounding[0] = max(1, int(n)); ctx._dps = prec_to_dps(n)`.
Note the digit mirror is computed from the raw `n`, not from `max(1, n)`. -/
def set_prec (c : MCtx) (n : Int) : MCtx :=
  { c with _prec := max 1 n, _dps := prec_to_dps n }

/-- `MPContext.set_dps`:
`ctx._prec = ctx._prec_rounding[0] = dps_to_prec(n); ctx._dps = max(1, int(n))`. -/
def set_dps (c : MCtx) (n : Int) : MCtx :=
  { c with _prec := dps_to_prec n, _dps := max 1 n }

/-- `MPContext.default`: `_prec = 53, _dps = 15, trap_complex = False`. -/
def defaultCtx : MCtx := ⟨53, 15, false⟩

/-- A `PrecisionManager` is built either from a `precfun` (as by
`extraprec`/`workprec`) or from a `dpsfun` (as by `extradps`/`workdps`);
exactly one of the two is set. -/
inductive PMSpec where
  | precfun (f : Int → Int)
  | dpsfun (f : Int → Int)

/-- `PrecisionManager.__enter__` (after saving `origp`): apply `precfun` to
the current precision through the `prec` property setter, or `dpsfun` to
the current digit count through the `dps` property setter. -/
def pmEnter : PMSpec → MCtx → MCtx
  | .precfun f, c => set_prec c (f c._prec)
  | .dpsfun f, c => set_dps c (f c._dps)

/-- One `with`-block (equivalently, one call of the decorated function):
`__enter__` records `origp = ctx.prec` and overrides the precision, the
wrapped computation `body` runs (mutating the context and returning
normally or raising), and `__exit__` (the decorator's `finally`) restores
`ctx.prec = origp` whether or not `body` raised.  `body`'s exceptional
result is re-raised (`__exit__` returns `False`). -/
def pmRun {E A : Type} (pm : PMSpec) (body : MCtx → MCtx × Except E A)
    (c : MCtx) : MCtx × Except E A :=
  let origp := c._prec
  let r := body (pmEnter pm c)
  (set_prec r.1 origp, r.2)

/-- `MPContext.workprec n`: sets the precision to `n` bits. -/
def workprecPM (n : Int) : PMSpec := .precfun fun _ => n

/-- `MPContext.extraprec n`: increases the precision by `n` bits. -/
def extraprecPM (n : Int) : PMSpec := .precfun fun p => p + n

/-- `MPContext.workdps n`: sets the decimal precision to `n`. -/
def workdpsPM (n : Int) : PMSpec := .dpsfun fun _ => n

/-- `MPContext.extradps n`: increases the decimal precision by `n`. -/
def extradpsPM (n : Int) : PMSpec := .dpsfun fun d => d + n

/-! ## `Context.convert` (claim C7)

An mpf result of a conversion is a kernel float: a dyadic value
`man * 2 ^ exp`.  We model the conversion constructors by the `(man, exp)`
pair they produce, and read off exact values through `dy`.
-/

/-- The exact value of a kernel float `(man, exp)`: `man * 2 ^ exp`. -/
def dy (m e : Int) : ℚ := (m : ℚ) * (2 : ℚ) ^ e

/-- `(2 : ℚ) ^ e` for an integer `e`. -/
def pow2q (e : Int) : ℚ := (2 : ℚ) ^ e

/-- Largest `e` with `2 ^ e ≤ x`, for `x > 0`: candidate from the bit
lengths of numerator and denominator, corrected by direct comparison. -/
def qlog2floor (x : ℚ) : Int :=
  let c : Int := (Nat.log2 x.num.toNat : Int) - (Nat.log2 x.den : Int)
  if pow2q (c + 1) ≤ x then c + 1
  else if pow2q c ≤ x then c
  else c - 1

/-- Modelled from the spec: rounding an exact rational to the working
precision — the nearest kernel float with `prec` significant bits
(NumericKernel constructors are parameterized by `(precision, rounding)`
and are not under `src/`). -/
def roundToPrec (x : ℚ) (prec : ℕ) : Int × Int :=
  if x = 0 then (0, 0)
  else
    let s : Int := if x < 0 then -1 else 1
    let a : ℚ := |x|
    let e : Int := qlog2floor a
    let shift : Int := (prec : Int) - 1 - e
    let m : Int := round (a * pow2q shift)
    (s * m, e + 1 - prec)

/-- `libmp.from_int`: lossless, the integer itself with exponent 0. -/
def from_int (n : Int) : Int × Int := (n, 0)

/-- `libmp.from_float`: a native float is already a dyadic value
`m * 2 ^ e`; the conversion is lossless. -/
def from_float (m e : Int) : Int × Int := (m, e)

/-- Modelled from the spec: `libmp.from_rational(p, q, prec)` rounds the
exact rational `p / q` to the current working precision. -/
def from_rational (p q : Int) (prec : ℕ) : Int × Int :=
  roundToPrec ((p : ℚ) / (q : ℚ)) prec

/-- Modelled from the spec: `libmp.from_str` on a plain decimal literal
with exact value `d * 10 ^ k` rounds it to the current working
precision. -/
def from_str_num (d k : Int) (prec : ℕ) : Int × Int :=
  roundToPrec ((d : ℚ) * (10 : ℚ) ^ k) prec

/-- The native inputs dispatched on by `MPContext.convert` (lines
1174-1208): Python ints, floats (given by their dyadic value `m * 2 ^ e`),
complex numbers (a pair of floats), exact rationals `rational.mpq`, and
plain numeric strings (given by their exact decimal value `d * 10 ^ k`). -/
inductive PyVal where
  | pint (n : Int)
  | pfloat (m e : Int)
  | pcomplex (rm re im ie : Int)
  | pmpq (p q : Int)
  | pstr (d k : Int)
deriving DecidableEq

/-- A tower value produced by `convert`: an mpf or an mpc. -/
inductive TowerVal where
  | real (v : Int × Int)
  | cplx (re im : Int × Int)
deriving DecidableEq

/-- `MPContext.convert` on native inputs, at working precision `prec`:
ints through `from_int`, floats through `from_float`, complex through a
pair of `from_float`, `mpq (p, q)` through `from_rational(p, q, prec)`,
plain numeric strings through `from_str` at the working precision. -/
def convert (prec : ℕ) : PyVal → TowerVal
  | .pint n => .real (from_int n)
  | .pfloat m e => .real (from_float m e)
  | .pcomplex rm re im ie => .cplx (from_float rm re) (from_float im ie)
  | .pmpq p q => .real (from_rational p q prec)
  | .pstr d k => .real (from_str_num d k prec)

/-- The exact value of a converted result when it is real. -/
def towerRealQ : TowerVal → Option ℚ
  | .real v => some (dy v.1 v.2)
  | .cplx _ _ => none

/-- The exact value of a converted result when it is complex. -/
def towerCplxQ : TowerVal → Option (ℚ × ℚ)
  | .real _ => none
  | .cplx r i => some (dy r.1 r.2, dy i.1 i.2)

/-! ## Interval construction `_mpi.__new__` (claim C8)

    a = ctx.mpf(a, rounding=round_floor)
    b = ctx.mpf(b, rounding=round_ceiling)
    if ctx.isnan(a) or ctx.isnan(b):
        a, b = ctx.ninf, ctx.inf
    assert a <= b, "endpoints must be properly ordered"
    return ctx.make_mpi((a._mpf_, b._mpf_))
-/

/-- The two exception kinds relevant to interval construction: the
`AssertionError` raised by a failing `assert`, and Python's `ValueError`. -/
inductive IErr where
  | assertionError
  | valueError
deriving DecidableEq

/-- `_mpi.__new__` on two endpoint values at working precision `prec`:
convert the lower endpoint rounding toward floor and the upper toward
ceiling, collapse to `(-inf, +inf)` if either converted endpoint is NaN,
and check `a <= b` with `assert`. -/
def mpi_new (prec : ℕ) (a b : KReal) : Except IErr (KReal × KReal) :=
  let a' := kfloor prec a
  let b' := kceil prec b
  if isnanK a' || isnanK b' then .ok (.ninf, .inf)
  else if kleB a' b' then .ok (a', b')
  else .error .assertionError

/-! ## `def_mp_function` (claim C3)

    def f(x, **kwargs):
        ...
        if hasattr(x, '_mpf_'):
            try:
                return ctx.make_mpf(mpf_f(x._mpf_, prec, rounding))
            except ComplexResult:
                if ctx.trap_complex:
                    raise
                return ctx.make_mpc(mpc_f((x._mpf_, fzero), prec, rounding))
        elif hasattr(x, '_mpc_'):
            return ctx.make_mpc(mpc_f(x._mpc_, prec, rounding))
        elif hasattr(x, '_mpi_'):
            if mpi_f:
                return ctx.make_mpi(mpi_f(x._mpi_, prec))
        raise NotImplementedError(...)
-/

/-- A tower instance of the context: `mpf`, `mpc` or `mpi`. -/
inductive MPVal where
  | mpfv (x : KReal)
  | mpcv (z : KReal × KReal)
  | mpiv (v : KReal × KReal)
deriving DecidableEq

/-- Errors escaping a `def_mp_function` method: the re-raised
`ComplexResult` (the spec's `DomainError`: a trapped real-to-complex
promotion) and `NotImplementedError`. -/
inductive MPErr where
  | complexResult
  | notImplemented
deriving DecidableEq

/-- The context method built by `MPContext.def_mp_function` from a real
kernel function `mpf_f` (which can signal a complex result), a complex
kernel function `mpc_f`, and an optional interval kernel function
`mpi_f`, under the context's `trap_complex` flag.  The real branch tries
`mpf_f`; on `ComplexResult` it re-raises when `trap_complex` is set and
otherwise promotes `x` to `(x, 0)` and applies `mpc_f`. -/
def def_mp_function (mpf_f : KReal → Except Unit KReal)
    (mpc_f : KReal × KReal → KReal × KReal)
    (mpi_f : Option (KReal × KReal → KReal × KReal))
    (trap_complex : Bool) : MPVal → Except MPErr MPVal
  | .mpfv x =>
    match mpf_f x with
    | .ok v => .ok (.mpfv v)
    | .error _ =>
      if trap_complex then .error .complexResult
      else .ok (.mpcv (mpc_f (x, .fin 0)))
  | .mpcv z => .ok (.mpcv (mpc_f z))
  | .mpiv v =>
    match mpi_f with
    | some g => .ok (.mpiv (g v))
    | none => .error .notImplemented

/-- Modelled from the spec: the exact square root of a nonnegative
rational, where one exists (the cases evaluated below are exact
squares). -/
def ratSqrt (q : ℚ) : ℚ :=
  (Nat.sqrt q.num.toNat : ℚ) / (Nat.sqrt q.den : ℚ)

/-- Modelled from the spec: the NumericKernel real square root
`libmp.mpf_sqrt`, which signals `ComplexResult` on negative input. -/
def mpf_sqrt : KReal → Except Unit KReal
  | .fin q => if q < 0 then .error () else .ok (.fin (ratSqrt q))
  | .inf => .ok .inf
  | .ninf => .error ()
  | .nan => .ok .nan

/-- Modelled from the spec: the NumericKernel complex square root
`libmp.mpc_sqrt`, specified here on real inputs — the square root of a
negative real `a` is purely imaginary with imaginary part `sqrt (-a)`
(general complex inputs are the external kernel's business and are left
as a placeholder). -/
def mpc_sqrt : KReal × KReal → KReal × KReal
  | (.fin a, .fin b) =>
    if b = 0 then
      if a < 0 then (.fin 0, .fin (ratSqrt (-a))) else (.fin (ratSqrt a), .fin 0)
    else (.fin a, .fin b)
  | z => z

/-- Modelled from the spec: placeholder for the external interval kernel
square root `libmp.mpi_sqrt` (the third argument of `def_mp_function` in
`ctx.sqrt = ctx.def_mp_function(libmp.mpf_sqrt, libmp.mpc_sqrt, libmp.mpi_sqrt)`). -/
def mpi_sqrtK : KReal × KReal → KReal × KReal := fun v => v

/-- `ctx.sqrt` as defined by `init_builtins`. -/
def ctx_sqrt (trap_complex : Bool) : MPVal → Except MPErr MPVal :=
  def_mp_function mpf_sqrt mpc_sqrt (some mpi_sqrtK) trap_complex

/-- `ctx.j`, the imaginary unit: `make_mpc((fzero, fone))`. -/
def ctx_j : MPVal := .mpcv (.fin 0, .fin 1)

/-! ## `MPContext.hypsum` (claims C1, C2, C9)

The adaptive summation driver (lines 1284-1365).  The summation kernel
built by `libmp.make_hyp_summator` is external to `src/`; it is passed in
as an oracle `summator` mapping the working precision `wp` and the current
`epsshift` to its outputs: the summed value, the `have_complex` flag, the
`magnitude` (the cancellation estimate is `-magnitude`), and the filled
per-key entries of `mag_dict`.  Likewise `ctx.nint_distance` (from
`ctx_base`, not under `src/`) is absorbed into the coefficient data: a
non-integer coefficient is carried together with the pair `(n, d)` that
`nint_distance` returns for it.  The memoization of summators in
`ctx.hyp_summators` (a pure cache) is not modelled.
-/

/-- A coefficient as classified by its flag: `intc z` is a coefficient
whose flag is `'Z'` with exact integer value `z`; `other n0 d0` is a
coefficient with any other flag, for which `ctx.nint_distance` returns
`(n0, d0)`. -/
inductive HCoeff where
  | intc (z : Int)
  | other (n0 d0 : Int)
deriving DecidableEq

/-- Errors raised by `hypsum`: the `ZeroDivisionError("pole in
hypergeometric series")` (the spec's `PoleError`) and the
`ValueError(ctx._hypsum_msg % (prec, prec+extraprec))` (the spec's
`ConvergenceError`, carrying the requested and the attempted working
precision). -/
inductive HypErr where
  | pole
  | convergence (requested attempted : Int)
deriving DecidableEq

/-- The value returned by `hypsum`: the summator's result wrapped as an
mpf or an mpc (`make_mpf zv` / `make_mpc zv`), or one of the two exact
zeros of the zero-threshold fast path (`ctx.zero` / `ctx.mpc(0)`). -/
inductive HypVal where
  | fromSumR (zv : Int)
  | fromSumC (zv : Int)
  | exactZeroR
  | exactZeroC
deriving DecidableEq

/-- The inner removability scan of the pole check: some numerator-side
coefficient `cc` (among `coeffs[:p]`) has flag `'Z'` and satisfies
`cc <= 0 and c <= cc` for the denominator-side integer `c = z`. -/
def numOk (z : Int) (cc : HCoeff) : Bool :=
  match cc with
  | .intc zz => decide (zz ≤ 0) && decide (z ≤ zz)
  | .other _ _ => false

/-- The classification loop of `hypsum` (lines 1301-1323), walking the
coefficients with their indices: a denominator-side (`i >= p`) exact
integer `<= 0` with no matching numerator-side integer raises the pole
error; every other coefficient contributes its `nint_distance` data
`n = -n0`, `d = -d0` — a denominator-side one with `n >= 0 and d > 4`
records `n` in `magnitude_check` and raises `extraprec` to at least
`d - prec + 60` — and `|d|` is added to `max_total_jump`.  Returns
`(extraprec, magnitude_check keys, max_total_jump)`. -/
def hypPrepGo (p : ℕ) (prec : Int) (coeffs : List HCoeff) :
    ℕ → List HCoeff → Int → List Int → Int →
    Except HypErr (Int × List Int × Int)
  | _, [], e, ks, j => .ok (e, ks, j)
  | i, c :: rest, e, ks, j =>
    match c with
    | .intc z =>
      if p ≤ i ∧ z ≤ 0 then
        if (coeffs.take p).any (numOk z) then
          hypPrepGo p prec coeffs (i + 1) rest e ks j
        else .error .pole
      else hypPrepGo p prec coeffs (i + 1) rest e ks j
    | .other n0 d0 =>
      let n := -n0
      let d := -d0
      if p ≤ i ∧ 0 ≤ n ∧ 4 < d then
        hypPrepGo p prec coeffs (i + 1) rest (max e (d - prec + 60))
          (ks ++ [n]) (j + |d|)
      else hypPrepGo p prec coeffs (i + 1) rest e ks (j + |d|)

/-- The classification loop started on the full coefficient list with
`extraprec = 50`, empty `magnitude_check` and `max_total_jump = 0`. -/
def hypPrep (p : ℕ) (prec : Int) (coeffs : List HCoeff) :
    Except HypErr (Int × List Int × Int) :=
  hypPrepGo p prec coeffs 0 coeffs 50 [] 0

/-- One answer of the summation kernel at a given working precision. -/
structure SummatorOut where
  /-- the summed value (opaque kernel data). -/
  zv : Int
  /-- whether the summation was complex. -/
  have_complex : Bool
  /-- `magnitude`; the cancellation estimate is `cancel = -magnitude`. -/
  magnitude : Int
  /-- the entries the summator wrote into `mag_dict`, per key. -/
  magOut : Int → Option Int

/-- The `jumps_resolved` computation (lines 1335-1340): only checked while
`extraprec < max_total_jump`; every key of `mag_dict` must have been
filled with a term index that is at least `prec`. -/
def jumpsResolvedB (extraprec maxjump prec : Int) (ks : List Int)
    (magOut : Int → Option Int) : Bool :=
  if extraprec < maxjump then
    ks.all fun n =>
      match magOut n with
      | none => false
      | some m => decide (prec ≤ m)
  else true

/-- The `accurate` acceptance test (line 1341):
`cancel < extraprec - 25 - 5 or not accurate_small`. -/
def accurateB (cancel extraprec : Int) (accurate_small : Bool) : Bool :=
  decide (cancel < extraprec - 25 - 5) || !accurate_small

/-- The retry update of `extraprec` (lines 1356-1359): doubled, then a
fixed increment of 5 is added. -/
def nextExtraprec (e : Int) : Int := 2 * e + 5

/-- The `while 1` escalation loop of `hypsum` (lines 1324-1365), with an
explicit fuel to make the recursion structural; `none` means the fuel ran
out before the loop returned.  At each pass: fail with the convergence
error if `extraprec > maxprec`; otherwise consult the summator at
`wp = prec + extraprec`, accept if the jumps are resolved and the result
accurate, return the exact zero of the appropriate variant on the
zero-threshold fast path, and otherwise retry with `extraprec` doubled
plus 5 and `epsshift` increased by 5. -/
def hypsumLoop (summator : Int → Int → SummatorOut)
    (prec maxprec maxjump : Int) (ks : List Int)
    (accurate_small : Bool) (zeroprec : Option Int) :
    ℕ → Int → Int → Option (Except HypErr HypVal)
  | 0, _, _ => none
  | fuel + 1, extraprec, epsshift =>
    if maxprec < extraprec then
      some (.error (.convergence prec (prec + extraprec)))
    else
      let o := summator (prec + extraprec) epsshift
      let cancel := -o.magnitude
      let jr := jumpsResolvedB extraprec maxjump prec ks o.magOut
      let acc := accurateB cancel extraprec accurate_small
      if jr && acc then
        some (.ok (if o.have_complex then .fromSumC o.zv else .fromSumR o.zv))
      else if jr then
        match zeroprec with
        | some zp =>
          if zp < cancel then
            some (.ok (if o.have_complex then .exactZeroC else .exactZeroR))
          else
            hypsumLoop summator prec maxprec maxjump ks accurate_small
              zeroprec fuel (nextExtraprec extraprec) (epsshift + 5)
        | none =>
          hypsumLoop summator prec maxprec maxjump ks accurate_small
            zeroprec fuel (nextExtraprec extraprec) (epsshift + 5)
      else
        hypsumLoop summator prec maxprec maxjump ks accurate_small
          zeroprec fuel (nextExtraprec extraprec) (epsshift + 5)

/-- `MPContext.hypsum`: run the classification loop, then the escalation
loop with the computed initial `extraprec`, the `magnitude_check` keys,
`max_total_jump`, and `epsshift = 25`. -/
def hypsum (summator : Int → Int → SummatorOut) (fuel : ℕ) (p : ℕ)
    (coeffs : List HCoeff) (prec maxprec : Int)
    (accurate_small : Bool) (zeroprec : Option Int) :
    Option (Except HypErr HypVal) :=
  match hypPrep p prec coeffs with
  | .error err => some (.error err)
  | .ok (e0, ks, mj) =>
    hypsumLoop summator prec maxprec mj ks accurate_small zeroprec fuel e0 25

/-- The pole condition as the source tests it: some denominator-side
coefficient (`p ≤ i`) is an exact integer `z ≤ 0` and no numerator-side
coefficient passes `numOk z` (i.e. none is an exact integer `zz` with
`zz ≤ 0` and `z ≤ zz`). -/
def CodePoleCond (p : ℕ) (coeffs : List HCoeff) : Prop :=
  ∃ i z, coeffs.get? i = some (.intc z) ∧ p ≤ i ∧ z ≤ 0 ∧
    (coeffs.take p).any (numOk z) = false

/-- The claim's removability scan (second definition, following the
claim's words, for comparison with `numOk`): a numerator-side parameter
that is an exact integer `<= 0` and *no greater than* the denominator
parameter `z`, i.e. `zz ≤ z`. -/
def numOkClaim (z : Int) (cc : HCoeff) : Bool :=
  match cc with
  | .intc zz => decide (zz ≤ 0) && decide (zz ≤ z)
  | .other _ _ => false

/-- The pole condition exactly as the claim words it: some
denominator-side coefficient is an exact integer `≤ 0` for which no
numerator-side coefficient is an exact integer that is `≤ 0` and no
greater than it. -/
def ClaimPoleCond (p : ℕ) (coeffs : List HCoeff) : Prop :=
  ∃ i z, coeffs.get? i = some (.intc z) ∧ p ≤ i ∧ z ≤ 0 ∧
    (coeffs.take p).any (numOkClaim z) = false

/-- A summator oracle used to evaluate concrete runs: it reports no
cancellation (`magnitude = 0`), a real sum with value 0, and fills no
`mag_dict` entry. -/
def oracleAccept : Int → Int → SummatorOut :=
  fun _ _ => ⟨0, false, 0, fun _ => none⟩

/-- A summator oracle reporting a heavily cancelled real sum (cancellation
estimate 100 bits) whose near-pole jumps are all resolved. -/
def oracleCancel : Int → Int → SummatorOut :=
  fun _ _ => ⟨0, false, -100, fun _ => some 1000⟩

/-!
# Theorems
-/

/-- Directed-rounding renormalization preserves NaN-ness (floor mode). -/
theorem isnanK_kfloor (prec : ℕ) (a : KReal) : isnanK (kfloor prec a) = isnanK a := by
  cases a <;> rfl

/-- Directed-rounding renormalization preserves NaN-ness (ceiling mode). -/
theorem isnanK_kceil (prec : ℕ) (a : KReal) : isnanK (kceil prec a) = isnanK a := by
  cases a <;> rfl

/-- C4: every ordering comparison (`<`, `<=`, `>`, `>=`) between two mpc
values, and between two mpi values, raises the ordering-unsupported
`TypeError` and never returns a boolean.  Although the assignment block
writes `__gt__` twice and never assigns `__lt__`, Python's dispatch for
`a < b` falls through to the right operand's reflected `__gt__`, which is
`_compare` and raises; the default boolean comparison is reached only
when both the slot and its reflection are unassigned, which holds for no
ordering operator here. -/
theorem C4_ordering_comparisons_raise :
    ∀ s : CmpSlot,
      richCompareOutcome mpcCompareAssignments s = .raisesTypeError ∧
      richCompareOutcome mpiCompareAssignments s = .raisesTypeError := by
  intro s
  cases s <;> exact ⟨rfl, rfl⟩

/-- C10: the mpq branch of `isnpint` is wrong, as its own `# XXX: WRONG`
comment admits: it tests `q % p == 0` (that `p` divides `q`) instead of
`p % q == 0` (that `q` divides `p`).  On `mpq(-2, 4)` — the rational
`-1/2`, not an integer — the code returns `True`, while the claimed
behaviour (True iff `q ∣ p ∧ p ≤ 0`) requires `False`. -/
theorem C10_isnpint_mpq_wrong :
    isnpint_mpq (-2) 4 = true ∧ ¬ IsNPIntRatClaim (-2) 4 := by
  refine ⟨by decide, ?_⟩
  rintro ⟨⟨c, hc⟩, -⟩
  omega

/-- C6: after `set_prec n` or `set_dps n`, for every integer `n`
(including `n < 1`), the stored precision is at least 1 bit, the stored
digit count is at least 1, and the two fields are mutually consistent
under the fixed conversion formulas: the digit field always equals
`prec_to_dps` of the precision field, and after `set_dps n` with `n ≥ 1`
the precision field also equals `dps_to_prec` of the digit field. -/
theorem C6_setters_keep_prec_dps_consistent :
    ∀ (c : MCtx) (n : Int),
      ((set_prec c n)._dps = prec_to_dps ((set_prec c n)._prec) ∧
        1 ≤ (set_prec c n)._prec ∧ 1 ≤ (set_prec c n)._dps) ∧
      ((set_dps c n)._dps = prec_to_dps ((set_dps c n)._prec) ∧
        1 ≤ (set_dps c n)._prec ∧ 1 ≤ (set_dps c n)._dps) ∧
      (1 ≤ n → (set_dps c n)._prec = dps_to_prec ((set_dps c n)._dps)) := by
  intro c n
  simp only [set_prec, set_dps, prec_to_dps, dps_to_prec]
  refine ⟨⟨?_, ?_, ?_⟩, ⟨?_, ?_, ?_⟩, ?_⟩ <;> omega

/-- C6 witness: `set_dps 15` at the default context. -/
theorem C6_witness :
    (set_dps defaultCtx 15)._prec = dps_to_prec ((set_dps defaultCtx 15)._dps) :=
  (C6_setters_keep_prec_dps_consistent defaultCtx 15).2.2 (by decide)

/-- Entering a precision scope always leaves a positive precision:
`set_prec` clamps to at least 1, and `dps_to_prec` is clamped to at
least 1. -/
theorem pmEnter_prec_pos (pm : PMSpec) (c : MCtx) : 1 ≤ (pmEnter pm c)._prec := by
  cases pm <;> simp only [pmEnter, set_prec, set_dps, dps_to_prec] <;> omega

/-- C5: a precision scope — whichever of the four kinds, and whether the
wrapped computation returns normally or raises — restores the context
precision to exactly the value in effect immediately before entry (the
wrapped body may itself mutate the precision arbitrarily); and an inner
scope opened in the state produced by an outer scope's entry restores
exactly that enclosing state's precision, never a global default. -/
theorem C5_precision_scope_restores :
    ∀ (E A : Type) (pm pm' : PMSpec) (body body' : MCtx → MCtx × Except E A)
      (c : MCtx),
      1 ≤ c._prec →
      (pmRun pm body c).1._prec = c._prec ∧
      (pmRun pm' body' (pmEnter pm c)).1._prec = (pmEnter pm c)._prec := by
  intro E A pm pm' body body' c hc
  have key : ∀ (pm₀ : PMSpec) (body₀ : MCtx → MCtx × Except E A) (c₀ : MCtx),
      1 ≤ c₀._prec → (pmRun pm₀ body₀ c₀).1._prec = c₀._prec := by
    intro pm₀ body₀ c₀ h₀
    simp only [pmRun, set_prec]
    omega
  exact ⟨key pm body c hc, key pm' body' (pmEnter pm c) (pmEnter_prec_pos pm c)⟩

/-- C5 witness: a `workprec 100` scope around a body that resets the
precision to 7 and then raises still restores the default 53 bits, and a
nested `extradps 3` scope restores the 100 bits set by the outer scope. -/
theorem C5_witness :
    (pmRun (workprecPM 100)
        (fun s => (set_prec s 7, (Except.error () : Except Unit Unit)))
        defaultCtx).1._prec = defaultCtx._prec ∧
    (pmRun (extradpsPM 3)
        (fun s => (set_prec s 7, (Except.error () : Except Unit Unit)))
        (pmEnter (workprecPM 100) defaultCtx)).1._prec =
      (pmEnter (workprecPM 100) defaultCtx)._prec :=
  C5_precision_scope_restores Unit Unit (workprecPM 100) (extradpsPM 3)
    (fun s => (set_prec s 7, Except.error ()))
    (fun s => (set_prec s 7, Except.error ())) defaultCtx (by decide)

/-- C3: for every kernel real function that signals a complex result on
an input `x`, the context method built by `def_mp_function` returns the
mpc produced by the complex kernel on `(x, 0)` when `trap_complex` is
off, and fails with the trapped domain error (the re-raised
`ComplexResult`) when `trap_complex` is on; in particular `ctx.sqrt` at
the Real `-1` returns an mpc equal to the imaginary unit `ctx.j` when
`trap_complex` is off, and fails when it is on. -/
theorem C3_real_to_complex_promotion :
    ∀ (mpf_f : KReal → Except Unit KReal)
      (mpc_f : KReal × KReal → KReal × KReal)
      (mpi_f : Option (KReal × KReal → KReal × KReal)) (x : KReal),
      mpf_f x = .error () →
      (def_mp_function mpf_f mpc_f mpi_f false (.mpfv x) =
          .ok (.mpcv (mpc_f (x, .fin 0))) ∧
        def_mp_function mpf_f mpc_f mpi_f true (.mpfv x) =
          .error .complexResult) ∧
      (ctx_sqrt false (.mpfv (.fin (-1))) = .ok ctx_j ∧
        ctx_sqrt true (.mpfv (.fin (-1))) = .error .complexResult) := by
  intro mpf_f mpc_f mpi_f x h
  have hsq : ∀ t, ctx_sqrt t (.mpfv (.fin (-1))) =
      def_mp_function mpf_sqrt mpc_sqrt (some mpi_sqrtK) t (.mpfv (.fin (-1))) :=
    fun t => rfl
  have hneg : mpf_sqrt (.fin (-1)) = .error () := by
    simp [mpf_sqrt]
  have hval : mpc_sqrt (.fin (-1), .fin 0) = (.fin 0, .fin 1) := by
    simp only [mpc_sqrt]
    norm_num [ratSqrt]
  refine ⟨⟨?_, ?_⟩, ?_, ?_⟩
  · simp [def_mp_function, h]
  · simp [def_mp_function, h]
  · rw [hsq]
    simp [def_mp_function, hneg, hval, ctx_j]
  · rw [hsq]
    simp [def_mp_function, hneg]

/-- C3 witness: the kernel square root signals `ComplexResult` at `-1`,
and the promotion theorem applies to it. -/
theorem C3_witness :
    def_mp_function mpf_sqrt mpc_sqrt (some mpi_sqrtK) false
        (.mpfv (.fin (-1))) =
      .ok (.mpcv (mpc_sqrt (.fin (-1), .fin 0))) :=
  (C3_real_to_complex_promotion mpf_sqrt mpc_sqrt (some mpi_sqrtK)
      (.fin (-1)) (by simp [mpf_sqrt])).1.1

/-- C8 (amended: the inverted-endpoint failure is the `assert`'s
`AssertionError`, not a `ValueError`): interval construction converts the
lower endpoint rounding toward floor and the upper toward ceiling, any
NaN endpoint collapses the interval to `(-inf, +inf)`, every successfully
constructed interval satisfies `lower ≤ upper`, and inverted converted
endpoints make the construction fail. -/
theorem C8_interval_construction :
    ∀ (prec : ℕ) (a b : KReal),
      (∀ l u, mpi_new prec a b = .ok (l, u) → kleB l u = true) ∧
      ((isnanK a || isnanK b) = true → mpi_new prec a b = .ok (.ninf, .inf)) ∧
      (∀ qa, a = .fin qa → ∃ ql, kfloor prec a = .fin ql ∧ ql ≤ qa) ∧
      (∀ qb, b = .fin qb → ∃ qu, kceil prec b = .fin qu ∧ qb ≤ qu) ∧
      ((isnanK a || isnanK b) = false →
        kleB (kfloor prec a) (kceil prec b) = false →
        mpi_new prec a b = .error .assertionError) := by
  intro prec a b
  have hpow : (0 : ℚ) < 2 ^ prec := by positivity
  refine ⟨?_, ?_, ?_, ?_, ?_⟩
  · intro l u h
    simp only [mpi_new] at h
    by_cases hn : (isnanK (kfloor prec a) || isnanK (kceil prec b)) = true
    · rw [if_pos hn] at h
      obtain ⟨rfl, rfl⟩ : KReal.ninf = l ∧ KReal.inf = u := by
        simpa [Prod.ext_iff] using h
      rfl
    · rw [if_neg hn] at h
      by_cases hle : kleB (kfloor prec a) (kceil prec b) = true
      · rw [if_pos hle] at h
        obtain ⟨rfl, rfl⟩ : kfloor prec a = l ∧ kceil prec b = u := by
          simpa [Prod.ext_iff] using h
        exact hle
      · rw [if_neg hle] at h
        cases h
  · intro h
    simp only [mpi_new, isnanK_kfloor, isnanK_kceil, h, if_pos]
  · intro qa ha
    subst ha
    refine ⟨_, rfl, ?_⟩
    rw [div_le_iff₀ hpow]
    exact Int.floor_le _
  · intro qb hb
    subst hb
    refine ⟨_, rfl, ?_⟩
    rw [le_div_iff₀ hpow]
    exact Int.le_ceil _
  · intro h1 h2
    simp only [mpi_new, isnanK_kfloor, isnanK_kceil, h1, h2]
    simp

/-- C8 witness: endpoints 2 and 1 are inverted, so construction at
precision 3 fails with the assertion error. -/
theorem C8_witness :
    mpi_new 3 (.fin 2) (.fin 1) = .error .assertionError := by
  have hf : kfloor 3 (KReal.fin 2) = .fin 2 := by
    simp only [kfloor, KReal.fin.injEq]
    norm_num
  have hc : kceil 3 (KReal.fin 1) = .fin 1 := by
    simp only [kceil, KReal.fin.injEq]
    norm_num
  refine (C8_interval_construction 3 (.fin 2) (.fin 1)).2.2.2.2 (by decide) ?_
  rw [hf, hc]
  simp only [kleB, decide_eq_false_iff_not]
  norm_num

/-- C8 counterexample to the claim as stated: inverted endpoints make
`_mpi.__new__` fail through `assert a <= b`, i.e. with `AssertionError`,
which is not the claimed `ValueError`. -/
theorem C8_counterexample :
    mpi_new 2 (.fin 2) (.fin 1) = .error .assertionError ∧
    IErr.assertionError ≠ IErr.valueError := by
  refine ⟨?_, by decide⟩
  have hf : kfloor 2 (KReal.fin 2) = .fin 2 := by
    simp only [kfloor, KReal.fin.injEq]
    norm_num
  have hc : kceil 2 (KReal.fin 1) = .fin 1 := by
    simp only [kceil, KReal.fin.injEq]
    norm_num
  simp only [mpi_new, hf, hc]
  norm_num [isnanK, kleB]

/-- No kernel float equals `1/3`: a dyadic value `m * 2 ^ e` has a
power-of-two denominator, and `3` is not one. -/
theorem dy_ne_third (m e : Int) : dy m e ≠ 1 / 3 := by
  intro h
  unfold dy at h
  rcases e with k | k
  · rw [Int.ofNat_eq_coe, zpow_natCast] at h
    have h3 : (3 : ℚ) * ((m : ℚ) * 2 ^ k) = 1 := by
      rw [h]
      norm_num
    have h4 : (3 * (m * 2 ^ k) : ℤ) = 1 := by exact_mod_cast h3
    have h5 : (3 : ℤ) ∣ 1 := ⟨m * 2 ^ k, h4.symm⟩
    norm_num at h5
  · rw [zpow_negSucc] at h
    have hp : ((2 : ℚ) ^ (k + 1)) ≠ 0 := by positivity
    have h3 : (3 : ℚ) * m = 2 ^ (k + 1) := by
      field_simp at h
      linarith
    have h4 : (3 * m : ℤ) = 2 ^ (k + 1) := by exact_mod_cast h3
    have h5 : (3 : ℤ) ∣ 2 ^ (k + 1) := ⟨m, h4.symm⟩
    have h6 : (3 : ℤ) ∣ 2 := Int.prime_three.dvd_of_dvd_pow h5
    norm_num at h6

/-- No kernel float equals `1/10`: `5` divides the denominator. -/
theorem dy_ne_tenth (m e : Int) : dy m e ≠ 1 / 10 := by
  intro h
  unfold dy at h
  rcases e with k | k
  · rw [Int.ofNat_eq_coe, zpow_natCast] at h
    have h3 : (10 : ℚ) * ((m : ℚ) * 2 ^ k) = 1 := by
      rw [h]
      norm_num
    have h4 : (10 * (m * 2 ^ k) : ℤ) = 1 := by exact_mod_cast h3
    have h5 : (5 : ℤ) ∣ 1 := ⟨2 * (m * 2 ^ k), by linarith⟩
    norm_num at h5
  · rw [zpow_negSucc] at h
    have hp : ((2 : ℚ) ^ (k + 1)) ≠ 0 := by positivity
    have h3 : (10 : ℚ) * m = 2 ^ (k + 1) := by
      field_simp at h
      linarith
    have h4 : (10 * m : ℤ) = 2 ^ (k + 1) := by exact_mod_cast h3
    have h5 : (5 : ℤ) ∣ 2 ^ (k + 1) := ⟨2 * m, by linarith⟩
    have hprime : Prime (5 : ℤ) := by norm_num
    have h6 : (5 : ℤ) ∣ 2 := hprime.dvd_of_dvd_pow h5
    norm_num at h6

/-- C7 (amended: conversion of exact rationals, like that of strings, is
rounded to the current working precision and is in general not exactly
equal to the input): `convert` is lossless for native integers, native
floats and native complex values, sends `mpq (p, q)` through
`from_rational` and numeric strings through `from_str` at the working
precision, and neither of those two is lossless — `mpq (1, 3)` and the
string with value `1/10` both convert to kernel floats different from
their exact values. -/
theorem C7_convert_losslessness :
    (∀ (prec : ℕ) (n : Int), towerRealQ (convert prec (.pint n)) = some (n : ℚ)) ∧
    (∀ (prec : ℕ) (m e : Int),
      towerRealQ (convert prec (.pfloat m e)) = some (dy m e)) ∧
    (∀ (prec : ℕ) (rm re im ie : Int),
      towerCplxQ (convert prec (.pcomplex rm re im ie)) =
        some (dy rm re, dy im ie)) ∧
    (∀ (prec : ℕ) (p q : Int),
      convert prec (.pmpq p q) = .real (from_rational p q prec)) ∧
    (∀ (prec : ℕ) (d k : Int),
      convert prec (.pstr d k) = .real (from_str_num d k prec)) ∧
    towerRealQ (convert 53 (.pmpq 1 3)) ≠ some ((1 : ℚ) / 3) ∧
    towerRealQ (convert 53 (.pstr 1 (-1))) ≠ some ((1 : ℚ) / 10) := by
  refine ⟨?_, ?_, ?_, ?_, ?_, ?_, ?_⟩
  · intro prec n
    simp [convert, from_int, towerRealQ, dy]
  · intro prec m e
    simp [convert, from_float, towerRealQ]
  · intro prec rm re im ie
    simp [convert, from_float, towerCplxQ]
  · intro prec p q
    rfl
  · intro prec d k
    rfl
  · simp only [convert, towerRealQ]
    exact fun h => dy_ne_third _ _ (Option.some.inj h)
  · simp only [convert, towerRealQ]
    exact fun h => dy_ne_tenth _ _ (Option.some.inj h)

/-- C7 counterexample to the claim as stated: converting the exact
rational `mpq (1, 3)` at the default working precision does not return a
value exactly equal to `1/3` — the result of `from_rational` is a kernel
float, hence dyadic. -/
theorem C7_counterexample :
    towerRealQ (convert 53 (.pmpq 1 3)) ≠ some ((1 : ℚ) / 3) := by
  simp only [convert, towerRealQ]
  exact fun h => dy_ne_third _ _ (Option.some.inj h)

/-- If some coefficient still to be scanned triggers the pole check, the
classification loop returns the pole error (whatever it raises it at, it
is the pole error). -/
theorem hypPrepGo_pole (p : ℕ) (prec : Int) (coeffs : List HCoeff) :
    ∀ (rest : List HCoeff) (i : ℕ) (e : Int) (ks : List Int) (j : Int),
      (∃ m z, rest.get? m = some (.intc z) ∧ p ≤ i + m ∧ z ≤ 0 ∧
        (coeffs.take p).any (numOk z) = false) →
      hypPrepGo p prec coeffs i rest e ks j = .error .pole := by
  intro rest
  induction rest with
  | nil =>
    intro i e ks j h
    rcases h with ⟨m, z, hm, -⟩
    simp at hm
  | cons c rest ih =>
    intro i e ks j h
    rcases h with ⟨m, z, hm, hpi, hz, hany⟩
    cases m with
    | zero =>
      rw [List.get?_cons_zero] at hm
      have hc : c = .intc z := Option.some.inj hm
      subst hc
      simp only [hypPrepGo]
      rw [if_pos ⟨by omega, hz⟩]
      simp [hany]
    | succ m' =>
      have hm' : rest.get? m' = some (.intc z) := by simpa using hm
      cases c with
      | intc z0 =>
        by_cases h1 : p ≤ i ∧ z0 ≤ 0
        · by_cases h2 : (coeffs.take p).any (numOk z0) = true
          · simp only [hypPrepGo, if_pos h1, h2, if_true]
            exact ih (i + 1) e ks j ⟨m', z, hm', by omega, hz, hany⟩
          · have h2' : (coeffs.take p).any (numOk z0) = false := by
              simpa using h2
            simp [hypPrepGo, if_pos h1, h2']
        · simp only [hypPrepGo, if_neg h1]
          exact ih (i + 1) e ks j ⟨m', z, hm', by omega, hz, hany⟩
      | other n0 d0 =>
        simp only [hypPrepGo]
        by_cases h1 : p ≤ i ∧ 0 ≤ -n0 ∧ 4 < -d0
        · rw [if_pos h1]
          exact ih (i + 1) _ _ _ ⟨m', z, hm', by omega, hz, hany⟩
        · rw [if_neg h1]
          exact ih (i + 1) _ _ _ ⟨m', z, hm', by omega, hz, hany⟩

/-- The classification loop never lowers `extraprec`. -/
theorem hypPrepGo_extra_mono (p : ℕ) (prec : Int) (coeffs : List HCoeff) :
    ∀ (rest : List HCoeff) (i : ℕ) (e : Int) (ks : List Int) (j : Int)
      (e' : Int) (ks' : List Int) (j' : Int),
      hypPrepGo p prec coeffs i rest e ks j = .ok (e', ks', j') → e ≤ e' := by
  intro rest
  induction rest with
  | nil =>
    intro i e ks j e' ks' j' h
    simp only [hypPrepGo, Except.ok.injEq, Prod.mk.injEq] at h
    omega
  | cons c rest ih =>
    intro i e ks j e' ks' j' h
    cases c with
    | intc z =>
      simp only [hypPrepGo] at h
      split at h
      · split at h
        · exact ih _ _ _ _ _ _ _ h
        · simp at h
      · exact ih _ _ _ _ _ _ _ h
    | other n0 d0 =>
      simp only [hypPrepGo] at h
      split at h
      · exact le_trans (le_max_left _ _) (ih _ _ _ _ _ _ _ h)
      · exact ih _ _ _ _ _ _ _ h

/-- The classification loop only ever raises the pole error. -/
theorem hypPrepGo_error_pole (p : ℕ) (prec : Int) (coeffs : List HCoeff) :
    ∀ (rest : List HCoeff) (i : ℕ) (e : Int) (ks : List Int) (j : Int)
      (err : HypErr),
      hypPrepGo p prec coeffs i rest e ks j = .error err → err = .pole := by
  intro rest
  induction rest with
  | nil =>
    intro i e ks j err h
    simp [hypPrepGo] at h
  | cons c rest ih =>
    intro i e ks j err h
    cases c with
    | intc z =>
      simp only [hypPrepGo] at h
      split at h
      · split at h
        · exact ih _ _ _ _ _ h
        · simp only [Except.error.injEq] at h
          exact h.symm
      · exact ih _ _ _ _ _ h
    | other n0 d0 =>
      simp only [hypPrepGo] at h
      split at h
      · exact ih _ _ _ _ _ h
      · exact ih _ _ _ _ _ h

/-- With enough fuel — one pass plus one per five bits of headroom below
the ceiling — the escalation loop never runs out: `extraprec` grows by at
least 5 per retry, so the loop always returns. -/
theorem hypsumLoop_total (summator : Int → Int → SummatorOut)
    (prec maxprec maxjump : Int) (ks : List Int) (asm : Bool)
    (zp : Option Int) :
    ∀ (f : ℕ) (e eps : Int), 0 ≤ e → maxprec - e + 1 ≤ 5 * (f : Int) →
      hypsumLoop summator prec maxprec maxjump ks asm zp (f + 1) e eps ≠
        none := by
  intro f
  induction f with
  | zero =>
    intro e eps he hb
    have hg : maxprec < e := by push_cast at hb; omega
    simp [hypsumLoop, hg]
  | succ f ih =>
    intro e eps he hb
    by_cases hg : maxprec < e
    · simp [hypsumLoop, hg]
    · have hrec : hypsumLoop summator prec maxprec maxjump ks asm zp (f + 1)
          (nextExtraprec e) (eps + 5) ≠ none := by
        apply ih
        · simp only [nextExtraprec]
          omega
        · simp only [nextExtraprec]
          push_cast at hb ⊢
          omega
      simp only [hypsumLoop, if_neg hg]
      split
      · simp
      · split
        · cases zp with
          | none => exact hrec
          | some z0 =>
            simp only []
            split
            · simp
            · exact hrec
        · exact hrec

/-- Whenever the escalation loop fails with the convergence error, the
error carries the requested precision `prec` and an attempted working
precision `prec + extraprec` that exceeds `prec + maxprec`. -/
theorem hypsumLoop_conv (summator : Int → Int → SummatorOut)
    (prec maxprec maxjump : Int) (ks : List Int) (asm : Bool)
    (zp : Option Int) :
    ∀ (fuel : ℕ) (e eps r w : Int),
      hypsumLoop summator prec maxprec maxjump ks asm zp fuel e eps =
        some (.error (.convergence r w)) →
      r = prec ∧ prec + maxprec < w := by
  intro fuel
  induction fuel with
  | zero =>
    intro e eps r w h
    simp [hypsumLoop] at h
  | succ f ih =>
    intro e eps r w h
    simp only [hypsumLoop] at h
    by_cases hg : maxprec < e
    · rw [if_pos hg] at h
      simp only [Option.some.injEq, Except.error.injEq,
        HypErr.convergence.injEq] at h
      obtain ⟨rfl, rfl⟩ := h
      exact ⟨rfl, by omega⟩
    · rw [if_neg hg] at h
      split at h
      · simp at h
      · split at h
        · cases zp with
          | none => exact ih _ _ _ _ h
          | some z0 =>
            simp only [] at h
            split at h
            · simp at h
            · exact ih _ _ _ _ h
        · exact ih _ _ _ _ h

/-- One accepting step of the zero-threshold fast path: at a pass where
the jumps are resolved, the result is not accurate, and the cancellation
estimate exceeds the configured `zeroprec`, the loop returns the exact
zero of the variant reported by the summator, without retrying. -/
theorem hypsumLoop_zero_step (summator : Int → Int → SummatorOut)
    (prec maxprec maxjump : Int) (ks : List Int) (asm : Bool) (zp : Int)
    (fuel : ℕ) (e eps : Int)
    (hle : e ≤ maxprec)
    (hjr : jumpsResolvedB e maxjump prec ks
      (summator (prec + e) eps).magOut = true)
    (hacc : accurateB (-(summator (prec + e) eps).magnitude) e asm = false)
    (hzp : zp < -(summator (prec + e) eps).magnitude) :
    hypsumLoop summator prec maxprec maxjump ks asm (some zp) (fuel + 1)
        e eps =
      some (.ok (if (summator (prec + e) eps).have_complex then
        HypVal.exactZeroC else HypVal.exactZeroR)) := by
  simp only [hypsumLoop]
  rw [if_neg (by omega : ¬ maxprec < e)]
  simp [hjr, hacc, hzp]

/-- C1 (amended: the removability comparison runs the other way — a
denominator-side non-positive integer coefficient is harmless exactly
when some numerator-side coefficient is a non-positive integer *no less
than* it, `c <= cc` in the source): whenever a denominator-side
coefficient is an exact integer `≤ 0` and no numerator-side coefficient
is an exact integer `cc` with `cc ≤ 0` and `c ≤ cc`, `hypsum` fails with
the pole error during classification — for every summation kernel and
every fuel, so the kernel is never invoked and no partial result is
returned. -/
theorem C1_pole_before_summation :
    ∀ (p : ℕ) (coeffs : List HCoeff) (prec : Int),
      CodePoleCond p coeffs →
      hypPrep p prec coeffs = .error .pole ∧
      ∀ (summator : Int → Int → SummatorOut) (fuel : ℕ) (maxprec : Int)
        (accurate_small : Bool) (zeroprec : Option Int),
        hypsum summator fuel p coeffs prec maxprec accurate_small zeroprec =
          some (.error .pole) := by
  intro p coeffs prec h
  have hp : hypPrep p prec coeffs = .error .pole := by
    rcases h with ⟨i, z, hi, hpi, hz, hany⟩
    exact hypPrepGo_pole p prec coeffs coeffs 0 50 [] 0
      ⟨i, z, hi, by omega, hz, hany⟩
  refine ⟨hp, ?_⟩
  intro summator fuel maxprec asm zp
  simp [hypsum, hp]

/-- C1 counterexample to the claim as stated: with one numerator
parameter `-1` and denominator parameter `-2`, the claim's condition
holds (no numerator parameter is a non-positive integer *no greater
than* `-2`), yet `hypsum` does not fail with the pole error — the source
accepts `-2 ≤ -1` as removable and sums the series. -/
theorem C1_counterexample :
    ClaimPoleCond 1 [HCoeff.intc (-1), HCoeff.intc (-2)] ∧
    hypsum oracleAccept 10 1 [HCoeff.intc (-1), HCoeff.intc (-2)] 53 600
        true none = some (.ok (.fromSumR 0)) := by
  constructor
  · exact ⟨1, -2, rfl, by decide, by decide, by decide⟩
  · decide

/-- C1 witness: numerator parameter `1`, denominator parameter `-1` — an
irremovable pole, detected before any summation. -/
theorem C1_witness :
    hypsum oracleAccept 10 1 [HCoeff.intc 1, HCoeff.intc (-1)] 53 600 true
        none = some (.error .pole) :=
  (C1_pole_before_summation 1 [HCoeff.intc 1, HCoeff.intc (-1)] 53
      ⟨1, -1, rfl, by decide, by decide, by decide⟩).2 oracleAccept 10 600
    true none

/-- C2: every call of `hypsum` terminates — a fuel of one pass plus one
per five bits of `maxprec` suffices, since each retry doubles `extraprec`
and adds 5, so it strictly increases — and when the escalation loop gives
up it fails with the convergence error carrying the requested precision
and the attempted working precision `prec + extraprec > prec + maxprec`. -/
theorem C2_hypsum_terminates :
    ∀ (summator : Int → Int → SummatorOut) (p : ℕ) (coeffs : List HCoeff)
      (prec maxprec : Int) (accurate_small : Bool) (zeroprec : Option Int),
      (∀ f : ℕ, maxprec + 1 ≤ 5 * (f : Int) →
        hypsum summator (f + 1) p coeffs prec maxprec accurate_small
          zeroprec ≠ none) ∧
      (∀ (fuel : ℕ) (r w : Int),
        hypsum summator fuel p coeffs prec maxprec accurate_small zeroprec =
          some (.error (.convergence r w)) →
        r = prec ∧ prec + maxprec < w) ∧
      (∀ e : Int, 0 ≤ e → e < nextExtraprec e) := by
  intro summator p coeffs prec maxprec asm zp
  refine ⟨?_, ?_, ?_⟩
  · intro f hb
    unfold hypsum
    cases hprep : hypPrep p prec coeffs with
    | error err => simp
    | ok t =>
      obtain ⟨e0, ks, mj⟩ := t
      have he0 : (50 : Int) ≤ e0 :=
        hypPrepGo_extra_mono p prec coeffs coeffs 0 50 [] 0 e0 ks mj hprep
      exact hypsumLoop_total summator prec maxprec mj ks asm zp f e0 25
        (by omega) (by omega)
  · intro fuel r w h
    unfold hypsum at h
    cases hprep : hypPrep p prec coeffs with
    | error err =>
      rw [hprep] at h
      have herr : err = .pole :=
        hypPrepGo_error_pole p prec coeffs coeffs 0 50 [] 0 err hprep
      subst herr
      simp at h
    | ok t =>
      obtain ⟨e0, ks, mj⟩ := t
      rw [hprep] at h
      exact hypsumLoop_conv summator prec maxprec mj ks asm zp fuel e0 25 r
        w h
  · intro e he
    simp only [nextExtraprec]
    omega

/-- C2 witness: an empty series at requested precision 53 with ceiling 8
returns (here: fails with the convergence error) rather than running
forever. -/
theorem C2_witness :
    hypsum oracleAccept 3 0 [] 53 8 true none ≠ none :=
  (C2_hypsum_terminates oracleAccept 0 [] 53 8 true none).1 2 (by decide)

/-- C9: if a zero threshold is configured and, at a pass where every
near-pole term index is resolved, the result is not accepted as accurate
but the cancellation estimate exceeds the threshold, `hypsum` returns an
exact zero of the correct variant — the complex zero when the summation
was complex, the real zero otherwise — instead of escalating precision
or failing. -/
theorem C9_zero_threshold_fastpath :
    ∀ (summator : Int → Int → SummatorOut) (p : ℕ) (coeffs : List HCoeff)
      (prec maxprec : Int) (accurate_small : Bool) (zp : Int) (fuel : ℕ)
      (e0 : Int) (ks : List Int) (mj : Int),
      hypPrep p prec coeffs = .ok (e0, ks, mj) →
      e0 ≤ maxprec →
      jumpsResolvedB e0 mj prec ks (summator (prec + e0) 25).magOut = true →
      accurateB (-(summator (prec + e0) 25).magnitude) e0 accurate_small =
        false →
      zp < -(summator (prec + e0) 25).magnitude →
      hypsum summator (fuel + 1) p coeffs prec maxprec accurate_small
          (some zp) =
        some (.ok (if (summator (prec + e0) 25).have_complex then
          HypVal.exactZeroC else HypVal.exactZeroR)) := by
  intro summator p coeffs prec maxprec asm zp fuel e0 ks mj hprep hle hjr
    hacc hzp
  unfold hypsum
  rw [hprep]
  exact hypsumLoop_zero_step summator prec maxprec mj ks asm zp fuel e0 25
    hle hjr hacc hzp

/-- C9 witness: an empty series whose summator reports 100 bits of
cancellation with threshold 40 returns the exact real zero. -/
theorem C9_witness :
    hypsum oracleCancel 3 0 [] 53 600 true (some 40) =
      some (.ok HypVal.exactZeroR) := by
  have h := C9_zero_threshold_fastpath oracleCancel 0 [] 53 600 true 40 2
    50 [] 0 rfl (by decide) (by decide) (by decide) (by decide)
  simpa [oracleCancel] using h

end CtxMP
